import Mathlib

/-!
Verification of the CubTEK coding-standard engine against its design
specification.

The definitions below are a shallow embedding of the TypeScript sources:

* `src/rules/functionLength.ts` — the Function-Length rule
  (`functionLengthCheck`, `findFunctionEnd`),
* `src/rules/namingConvention.ts` — the Naming-Convention rule
  (`namingConventionCheck`, `isInsideFunction`),
* `src/core/checker.ts` — the check orchestrator (`checkDocument`,
  `runCustomRuleChecks`),
* `src/utils/diagnostics.ts` (DiagnosticUtility) — severity resolution
  (`resolveSeverity`), the clang-tidy output adapter
  (`parseClangTidyDiagnostic`) and `filterAndSortDiagnostics`,
* `src/core/quickFix.ts` (CubtekQuickFixProvider) — the naming-convention
  quick fix (`createNamingConventionFixAction`).

Documents are `List Char`; machine strings stay `String` where the source
only compares them.  JavaScript regular expressions are compiled by hand
into deterministic scanners (the two patterns used by the rules have no
observable backtracking, as argued in comments at each definition).
-/

/-! ## Character classes (JavaScript `\s`, `\w`) -/

/-- JavaScript `\s` restricted to the ASCII whitespace actually produced by
the sources and test inputs (space, tab, newline, carriage return, vertical
tab, form feed). -/
def isWs (c : Char) : Bool :=
  c = ' ' || c = '\t' || c = '\n' || c = '\r' || c = '\x0b' || c = '\x0c'

/-- JavaScript `\w`: ASCII letters, digits and underscore. -/
def isWordChar (c : Char) : Bool :=
  c.isAlpha || c.isDigit || c = '_'

/-- Length of the maximal run of characters satisfying `p` at the head. -/
def runLength (p : Char → Bool) : List Char → Nat
  | [] => 0
  | c :: rest => if p c then runLength p rest + 1 else 0

/-- Maximal whitespace run at the head (a greedy `\s*` / `\s+`). -/
def wsRun (s : List Char) : Nat := runLength isWs s

/-- Maximal word-character run at the head (a greedy `\w+`). -/
def wordRun (s : List Char) : Nat := runLength isWordChar s

/-- Maximal run of non-`(`-characters at the head (a greedy `[^)]*`). -/
def nonParenRun (s : List Char) : Nat := runLength (fun c => c != ')') s

/-- Word-character test through `Option` (out of range counts as non-word,
as for JavaScript `\b` at the ends of the string). -/
def isWordOpt : Option Char → Bool
  | some c => isWordChar c
  | none => false

/-- JavaScript `\b` between the previous character `prev` and the head of
`s`: exactly one side is a word character. -/
def wordBoundary (prev : Option Char) (s : List Char) : Bool :=
  isWordOpt prev != isWordOpt s.head?

/-! ## Positions (vscode `document.positionAt`, `lineAt`, `split('\n')`) -/

/-- Number of newline characters in a list. -/
def countNl : List Char → Nat
  | [] => 0
  | c :: rest => (if c = '\n' then 1 else 0) + countNl rest

/-- Line of a text offset: newlines strictly before it
(`document.positionAt(off).line`). -/
def lineOfOffset (text : List Char) (off : Nat) : Nat :=
  countNl (text.take off)

/-- Column of a text offset: characters after the last newline before it
(`document.positionAt(off).character`). -/
def colOfOffset (text : List Char) (off : Nat) : Nat :=
  ((text.take off).reverse.takeWhile (fun c => c != '\n')).length

/-- JavaScript `text.split('\n')`. -/
def splitLines : List Char → List (List Char)
  | [] => [[]]
  | c :: rest =>
    if c = '\n' then [] :: splitLines rest
    else
      match splitLines rest with
      | [] => [[c]]
      | l :: ls => (c :: l) :: ls

/-- Text of line `n` (`document.lineAt(n).text`); total, empty when out of
range (the embedded rules only consult lines that exist). -/
def lineAtText (text : List Char) (n : Nat) : List Char :=
  (splitLines text).getD n []

/-! ## Brace counting (Structural Scanner) -/

/-- One step of the brace counter: `+1` on `{`, `-1` on `}`. -/
def braceStep (n : Int) (c : Char) : Int :=
  if c = '\x7b' then n + 1 else if c = '\x7d' then n - 1 else n

/-- Net brace count of a list of characters. -/
def braceDelta (l : List Char) : Int := l.foldl braceStep 0

/-- Net brace count of the slice `[a, b)` of `text`. -/
def braceSlice (text : List Char) (a b : Nat) : Int :=
  braceDelta ((text.drop a).take (b - a))

/-- Well-balanced braces: every prefix count is non-negative and the total
is zero (the bound `n ≤ length` keeps the condition decidable; `take`
saturates beyond it). -/
def balancedBraces (text : List Char) : Prop :=
  braceDelta text = 0 ∧ ∀ n, n ≤ text.length → 0 ≤ braceDelta (text.take n)

instance : DecidablePred balancedBraces := fun text =>
  inferInstanceAs (Decidable (_ ∧ _))

/-- `FunctionLengthRule.findFunctionEnd`'s scan loop
(src/rules/functionLength.ts lines 98-112): `i` is the absolute offset of
the head of the remaining text. -/
def findFunctionEndAux : List Char → Nat → Int → Bool → Option Nat
  | [], _, _, _ => none
  | c :: rest, i, braceCount, foundFirstBrace =>
    if c = '\x7b' then
      findFunctionEndAux rest (i + 1) (braceCount + 1) true
    else if c = '\x7d' then
      if foundFirstBrace = true ∧ braceCount - 1 = 0 then some i
      else findFunctionEndAux rest (i + 1) (braceCount - 1) foundFirstBrace
    else findFunctionEndAux rest (i + 1) braceCount foundFirstBrace

/-- `FunctionLengthRule.findFunctionEnd` (src/rules/functionLength.ts):
scans from `startOff`, counting `{` up and `}` down, and returns the offset
of the first `}` that brings the counter to zero after a `{` was seen;
`none` models the source's `null`. -/
def findFunctionEnd (text : List Char) (startOff : Nat) : Option Nat :=
  findFunctionEndAux (text.drop startOff) startOff 0 false

/-- `NamingConventionRule.isInsideFunction`
(src/rules/namingConvention.ts lines 85-109): count braces on all lines
strictly before `lineNumber` and test for a positive count. -/
def isInsideFunction (text : List Char) (lineNumber : Nat) : Bool :=
  decide (0 < ((splitLines text).take lineNumber).foldl
    (fun n line => n + braceDelta line) 0)

/-! ## Regex scanners

The two rule regexes are compiled by hand.  Both are deterministic: every
greedy sub-pattern (`\w+`, `\s+`, `[^)]*`) is followed by a pattern that
cannot match a character of the same class, so backtracking into a run
never helps, and each literal alternative (`extern`, `static`, `const`,
`unsigned`, the type names) either participates in the unique viable parse
or the whole attempt at that start position fails. -/

/-- A match of a global (`g` flag) regex scan: start offset, length of the
full match (`match[0]`) and the captured identifier. -/
structure RxMatch where
  index : Nat
  len : Nat
  name : List Char
  deriving Repr, DecidableEq

/-- An optional keyword-plus-`\s+` group (`(?:const\s+)?` and
`(?:unsigned\s+)?`): number of characters it consumes. -/
def optKw (s : List Char) (kw : List Char) : Nat :=
  if kw.isPrefixOf s ∧ wsRun (s.drop kw.length) ≠ 0 then
    kw.length + wsRun (s.drop kw.length)
  else 0

/-- The type alternation
`(?:int|char|float|double|bool|void|\w+_t)` applied to the maximal word
run `ty` of length `t` (a primitive matches only when it is the entire
run, since `\s+` follows; `\w+_t` must also consume the entire run and
needs at least one character before `_t`). -/
def isTypeWord (ty : List Char) (t : Nat) : Prop :=
  ty = ("int").data ∨ ty = ("char").data ∨ ty = ("float").data ∨
  ty = ("double").data ∨ ty = ("bool").data ∨ ty = ("void").data ∨
  (3 ≤ t ∧ ("_t").data.isSuffixOf ty = true)

instance (ty : List Char) (t : Nat) : Decidable (isTypeWord ty t) :=
  inferInstanceAs (Decidable (_ ∨ _))

/-- Final stage of the global-variable pattern, `(\w+)\s*(?:=|;|\[)`:
the captured identifier, optional whitespace and the terminator.
`consumed` counts the characters the earlier stages consumed. -/
def gvIdentTail (consumed : Nat) (s6 : List Char) : Option (Nat × List Char) :=
  let n := wordRun s6
  if n = 0 then none else
  let nm := s6.take n
  let s7 := s6.drop n
  let w3 := wsRun s7
  match (s7.drop w3).head? with
  | some c =>
    if c = '=' ∨ c = ';' ∨ c = '[' then some (consumed + n + w3 + 1, nm)
    else none
  | none => none

/-- Middle stage of the global-variable pattern:
`(?:const\s+)?(?:unsigned\s+)?(?:int|char|float|double|bool|void|\w+_t)\s+`
followed by the identifier tail. -/
def gvTypeTail (consumed : Nat) (s2 : List Char) : Option (Nat × List Char) :=
  let k1 := optKw s2 (("const").data)
  let s3 := s2.drop k1
  let k2 := optKw s3 (("unsigned").data)
  let s4 := s3.drop k2
  let t := wordRun s4
  if t = 0 then none else
  if ¬ isTypeWord (s4.take t) t then none else
  let s5 := s4.drop t
  let w2 := wsRun s5
  if w2 = 0 then none else
  gvIdentTail (consumed + k1 + k2 + t + w2) (s5.drop w2)

/-- One attempt of the global-variable pattern of
`NamingConventionRule.check` (src/rules/namingConvention.ts line 22)

`\b(?:extern|static)?\s+(?:const\s+)?(?:unsigned\s+)?`
`(?:int|char|float|double|bool|void|\w+_t)\s+(\w+)\s*(?:=|;|\[)`

at the position whose remaining text is `s` and whose preceding character
is `prev`.  Returns the match length and the captured identifier. -/
def gvMatchAt (prev : Option Char) (s : List Char) : Option (Nat × List Char) :=
  if wordBoundary prev s = false then none else
  let q := if ("extern").data.isPrefixOf s ∨ ("static").data.isPrefixOf s then 6 else 0
  let s1 := s.drop q
  let w1 := wsRun s1
  if w1 = 0 then none else
  gvTypeTail (q + w1) (s1.drop w1)

/-! The function pattern used by both rules
(src/rules/functionLength.ts line 48, src/rules/namingConvention.ts
line 58) is `\b(\w+)\s+(\w+)\s*\([^)]*\)\s*(?:const\s*)?\s*\x7b`,
returning the match length and the captured function name (`match[2]`). -/

/-- Tail of the function pattern after the name:
`\([^)]*\)\s*(?:const\s*)?\s*\x7b`; `consumed` counts the characters
the earlier stages consumed and `nm` carries the captured name. -/
def fnParenTail (consumed : Nat) (nm : List Char) (s4 : List Char) :
    Option (Nat × List Char) :=
  if s4.head? ≠ some '(' then none else
  let s5 := s4.drop 1
  let np := nonParenRun s5
  let s6 := s5.drop np
  if s6.head? ≠ some ')' then none else
  let s7 := s6.drop 1
  let w3 := wsRun s7
  let s8 := s7.drop w3
  if ("const").data.isPrefixOf s8 then
    let s9 := s8.drop 5
    let w4 := wsRun s9
    if (s9.drop w4).head? = some '\x7b' then
      some (consumed + 1 + np + 1 + w3 + 5 + w4 + 1, nm)
    else none
  else
    if s8.head? = some '\x7b' then
      some (consumed + 1 + np + 1 + w3 + 1, nm)
    else none

/-- One attempt of the function pattern used by both rules
(see the doc comment above): `\b(\w+)\s+(\w+)\s*` then `fnParenTail`. -/
def fnMatchAt (prev : Option Char) (s : List Char) : Option (Nat × List Char) :=
  if wordBoundary prev s = false then none else
  let r1 := wordRun s
  if r1 = 0 then none else
  let s1 := s.drop r1
  let w1 := wsRun s1
  if w1 = 0 then none else
  let s2 := s1.drop w1
  let r2 := wordRun s2
  if r2 = 0 then none else
  let nm := s2.take r2
  let s3 := s2.drop r2
  let w2 := wsRun s3
  fnParenTail (r1 + w1 + r2 + w2) nm (s3.drop w2)

/-- The `while ((match = pattern.exec(text)) !== null)` loop of a global
regex: try the current position; on success continue at the match end
(`lastIndex`), otherwise advance one character.  The fuel argument only
serves structural recursion; `scanFrom` supplies enough for the whole
text. -/
def scanAux (m : Option Char → List Char → Option (Nat × List Char)) :
    Nat → Option Char → Nat → List Char → List RxMatch
  | 0, _, _, _ => []
  | fuel + 1, prev, idx, s =>
    match m prev s with
    | some (len, nm) =>
      ⟨idx, len, nm⟩ :: scanAux m fuel (s.get? (len - 1)) (idx + len) (s.drop len)
    | none =>
      match s with
      | [] => []
      | c :: rest => scanAux m fuel (some c) (idx + 1) rest

/-- Scan of the suffix `s` starting at absolute offset `idx` with
preceding character `prev`. -/
def scanFrom (m : Option Char → List Char → Option (Nat × List Char))
    (prev : Option Char) (idx : Nat) (s : List Char) : List RxMatch :=
  scanAux m (s.length + 1) prev idx s

/-- Full scan of a text with a global regex. -/
def rxScan (m : Option Char → List Char → Option (Nat × List Char))
    (text : List Char) : List RxMatch :=
  scanFrom m none 0 text

/-! ## Substring search (JavaScript `indexOf` / `includes`) -/

/-- First index at which `sub` occurs in the list (JavaScript
`String.prototype.indexOf` for a substring). -/
def indexOfSub (sub : List Char) : List Char → Option Nat
  | [] => if sub.isPrefixOf ([] : List Char) then some 0 else none
  | c :: t =>
    if sub.isPrefixOf (c :: t) then some 0
    else (indexOfSub sub t).map (fun k => k + 1)

/-- JavaScript `hay.includes(sub)`. -/
def containsSub (hay sub : List Char) : Bool :=
  (indexOfSub sub hay).isSome

/-- JavaScript `lineText.indexOf(ch, start)`. -/
def indexOfFromAux (ch : Char) : List Char → Nat → Option Nat
  | [], _ => none
  | c :: rest, i => if c = ch then some i else indexOfFromAux ch rest (i + 1)

/-- Index of the first occurrence of `ch` at or after `start`. -/
def indexOfFrom (l : List Char) (ch : Char) (start : Nat) : Option Nat :=
  match indexOfFromAux ch (l.drop start) 0 with
  | some k => some (start + k)
  | none => none

/-! ## The two concrete rules -/

/-- A raw rule finding: highlight range (start line/column, end
line/column) and message, as built by `Rule.createDiagnostic`. -/
structure Finding where
  startLine : Nat
  startCol : Nat
  endLine : Nat
  endCol : Nat
  message : List Char
  deriving Repr, DecidableEq

/-- Message of a global-variable naming finding
(src/rules/namingConvention.ts line 50). -/
def gvMsg (nm : List Char) : List Char :=
  ("Global variable \"").data ++ nm ++ ("\" should start with \"g_\" prefix").data

/-- Message of a function naming finding
(src/rules/namingConvention.ts line 75). -/
def fnMsg (nm : List Char) : List Char :=
  ("Function name \"").data ++ nm ++ ("\" should be camelCase or PascalCase").data

/-- Message of a function-length finding
(src/rules/functionLength.ts line 71). -/
def flMsg (nm : List Char) (functionLines maxLines : Nat) : List Char :=
  ("Function \"").data ++ nm ++ ("\" is ").data ++ Nat.toDigits 10 functionLines ++
  (" lines long (maximum allowed is ").data ++ Nat.toDigits 10 maxLines ++ (")").data

/-- The camelCase-or-PascalCase test
`/^[a-z][a-zA-Z0-9]*$|^[A-Z][a-zA-Z0-9]*$/` of
src/rules/namingConvention.ts line 67. -/
def isCamelOrPascal : List Char → Bool
  | [] => false
  | c :: rest => c.isAlpha && rest.all (fun d => d.isAlpha || d.isDigit)

/-- `NamingConventionRule.check` (src/rules/namingConvention.ts lines
17-83): the global-variable pass followed by the function-naming pass.
For each global match the source computes the line of `match.index`,
skips it when that line is inside a function or contains `(`, and emits a
finding when the identifier lacks the `g_` prefix; the highlight range is
derived from `match.index + match[0].indexOf(varName)`. -/
def namingConventionCheck (text : List Char) : List Finding :=
  let globals := (rxScan gvMatchAt text).filterMap (fun m =>
    let linePos := lineOfOffset text m.index
    let lineText := lineAtText text linePos
    if isInsideFunction text linePos = true ∨ '(' ∈ lineText then none
    else if ("g_").data.isPrefixOf m.name = true then none
    else
      let match0 := (text.drop m.index).take m.len
      let varOff := m.index + (indexOfSub m.name match0).getD 0
      some ⟨lineOfOffset text varOff, colOfOffset text varOff,
            lineOfOffset text varOff, colOfOffset text varOff + m.name.length,
            gvMsg m.name⟩)
  let funcs := (rxScan fnMatchAt text).filterMap (fun m =>
    if isCamelOrPascal m.name = true then none
    else
      let match0 := (text.drop m.index).take m.len
      let fnOff := m.index + (indexOfSub m.name match0).getD 0
      some ⟨lineOfOffset text fnOff, colOfOffset text fnOff,
            lineOfOffset text fnOff, colOfOffset text fnOff + m.name.length,
            fnMsg m.name⟩)
  globals ++ funcs

/-- `FunctionLengthRule.check` (src/rules/functionLength.ts lines 38-80).
The limit is the source's hard-coded `const maxLines = 50` (the
`params.maxLines` entry of the configuration is never read by the
rule). -/
def functionLengthCheck (text : List Char) : List Finding :=
  let maxLines := 50
  (rxScan fnMatchAt text).filterMap (fun m =>
    match findFunctionEnd text m.index with
    | some endOff =>
      let functionLines := lineOfOffset text endOff - lineOfOffset text m.index + 1
      if maxLines < functionLines then
        some ⟨lineOfOffset text m.index, colOfOffset text m.index,
              lineOfOffset text m.index, colOfOffset text m.index + m.name.length,
              flMsg m.name functionLines maxLines⟩
      else none
    | none => none)

/-- Modelled from the spec: the Pattern Library predicate
`looksLikeGlobalDeclaration` as described in section 4.1 — "matches an
optional `extern`/`static` qualifier, optional `const`, optional
`unsigned`, a primitive-or-`_t`-suffixed type, then an identifier
followed by `=`, `;`, or `[`" — with no further requirement on what
precedes the declaration.  It states the premise of claim C4; the
engine's own matcher is `gvMatchAt`. -/
def specLooksLikeGlobalDeclaration (line : List Char) : Bool :=
  let q := if ("extern").data.isPrefixOf line ∨ ("static").data.isPrefixOf line
           then 6 + wsRun (line.drop 6) else 0
  let s1 := line.drop q
  let k1 := optKw s1 (("const").data)
  let s2 := s1.drop k1
  let k2 := optKw s2 (("unsigned").data)
  let s3 := s2.drop k2
  let t := wordRun s3
  if t = 0 then false else
  if ¬ isTypeWord (s3.take t) t then false else
  let s4 := s3.drop t
  let w2 := wsRun s4
  if w2 = 0 then false else
  let s5 := s4.drop w2
  let n := wordRun s5
  if n = 0 then false else
  let s6 := s5.drop n
  let w3 := wsRun s6
  match (s6.drop w3).head? with
  | some c => c = '=' || c = ';' || c = '['
  | none => false

/-! ## Diagnostics, severity resolution, orchestration -/

/-- A resolved diagnostic, as handed to downstream consumers.  Severity is
the numeric `vscode.DiagnosticSeverity`: Error 0, Warning 1,
Information 2, Hint 3. -/
structure Diag where
  startLine : Nat
  startCol : Nat
  endLine : Nat
  endCol : Nat
  message : String
  severity : Nat
  source : String
  code : Option String
  deriving Repr, DecidableEq

/-- The `severityMap` of DiagnosticUtility: severity strings to numeric
`vscode.DiagnosticSeverity` values. -/
def severityNum (s : String) : Option Nat :=
  if s = "error" then some 0
  else if s = "warning" then some 1
  else if s = "information" then some 2
  else if s = "hint" then some 3
  else none

/-- Severity resolution of `DiagnosticUtility.createDiagnostic`
(src/utils/diagnostics.ts lines 274-277):

`let severityString = ruleConfig?.severity || config.severity;`
`let severity = severityMap[severityString] || DiagnosticSeverity.Warning;`

`ruleSeverity` is the per-rule configured severity (absent when the rule
has no configuration entry or the entry has no `severity`), and
`projectSeverity` the project-wide default.  The second `||` sees the
numeric value: a missing key is `undefined` and `Error = 0` is falsy, so
both fall back to Warning (1). -/
def resolveSeverity (ruleSeverity : Option String) (projectSeverity : String) : Nat :=
  let severityString := ruleSeverity.getD projectSeverity
  match severityNum severityString with
  | some n => if n = 0 then 1 else n
  | none => 1

/-- Severity mapping of `DiagnosticUtility.parseClangTidyDiagnostic`
(src/utils/diagnostics.ts lines 689-704): `error`, `warning`,
`note`/`remark`, and a default of Warning. -/
def tidySeverity (level : String) : Nat :=
  let l := String.mk (level.data.map Char.toLower)
  if l = "error" then 0
  else if l = "warning" then 1
  else if l = "note" ∨ l = "remark" then 2
  else 1

/-- `DiagnosticUtility.parseClangTidyDiagnostic`
(src/utils/diagnostics.ts lines 680-736).  `line`/`column` are the
1-based values reported by the external tool; `lineTextOpt` is the text
of line `line - 1` of the document, `none` when `document.lineAt` throws
(out of range), in which case the catch block uses end column 1000.  The
end column is `punctuationIndex + 1` for the first `;` found from offset
`column - 1` when that index is positive, else the line length. -/
def parseClangTidyDiagnostic (lineTextOpt : Option (List Char))
    (line column : Nat) (message ruleId level : String) : Diag :=
  let severity := tidySeverity level
  let endCol : Nat :=
    match lineTextOpt with
    | none => 1000
    | some lineText =>
      match indexOfFrom lineText ';' (column - 1) with
      | some idx => if 0 < idx then idx + 1 else lineText.length
      | none => lineText.length
  ⟨line - 1, column - 1, line - 1, endCol, message, severity,
   "CubTEK (clang-tidy)", some ruleId⟩

/-- `CubtekChecker.runCustomRuleChecks` (src/core/checker.ts lines
176-195): each enabled rule's `check` runs inside its own try/catch, a
throwing rule contributes nothing, the others' diagnostics are
concatenated in order.  A rule execution is its result: `ok` with its
diagnostics, or `error` with the thrown message. -/
def runCustomRuleChecks : List (Except String (List Diag)) → List Diag
  | [] => []
  | Except.ok ds :: rest => ds ++ runCustomRuleChecks rest
  | Except.error _ :: rest => runCustomRuleChecks rest

/-- The `console.error` log of `runCustomRuleChecks`: the messages of the
rules that threw, in order. -/
def ruleErrorLog : List (Except String (List Diag)) → List String
  | [] => []
  | Except.ok _ :: rest => ruleErrorLog rest
  | Except.error e :: rest => e :: ruleErrorLog rest

/-- Observable outcome of one `CubtekChecker.checkDocument` call: the
returned diagnostics, the `vscode.window.showErrorMessage` calls, and
whether the external analyzer respectively the local rules were
invoked. -/
structure CheckRun where
  diagnostics : List Diag
  errorMessages : List String
  tidyInvoked : Bool
  rulesInvoked : Bool
  deriving Repr, DecidableEq

/-- `CubtekChecker.checkDocument` (src/core/checker.ts lines 17-42).
Non-C/C++ documents return `[]` immediately.  Otherwise
`await runClangTidy` runs first; a rejection (for example the ENOENT
`clang-tidy not found` error) jumps to the catch block, which shows one
error message and returns `[]` — `runCustomRuleChecks` is never reached.
On success both diagnostic sets are concatenated.  `tidy` abstracts the
adapted result of the external analyzer run. -/
def checkDocument (languageId : String) (tidy : Except String (List Diag))
    (ruleResults : List (Except String (List Diag))) : CheckRun :=
  if languageId ≠ "c" ∧ languageId ≠ "cpp" then ⟨[], [], false, false⟩
  else
    match tidy with
    | Except.error e => ⟨[], ["Checker error: " ++ e], true, false⟩
    | Except.ok tds => ⟨tds ++ runCustomRuleChecks ruleResults, [], true, true⟩

/-! ## Filtering and sorting (DiagnosticUtility.filterAndSortDiagnostics) -/

/-- The comparator of `filterAndSortDiagnostics` as a total preorder:
severity ascending, then start line ascending. -/
def diagLe (a b : Diag) : Bool :=
  decide (a.severity < b.severity ∨
    (a.severity = b.severity ∧ a.startLine ≤ b.startLine))

/-- Stable insertion of `x` into a sorted list: `x` goes before the first
element it compares less-or-equal to, hence before later elements with an
equal key — the placement of a stable sort, which
`Array.prototype.sort` is (ECMAScript 2019). -/
def sortInsert (x : Diag) : List Diag → List Diag
  | [] => [x]
  | y :: ys => if diagLe x y then x :: y :: ys else y :: sortInsert x ys

/-- Stable sort by `diagLe`, modelling `filtered.sort((a, b) => ...)`. -/
def diagSort : List Diag → List Diag
  | [] => []
  | x :: xs => sortInsert x (diagSort xs)

/-- The two filter passes of `filterAndSortDiagnostics`
(src/utils/diagnostics.ts lines 626-639): severity at most the threshold
when one is given, then rule-id substring membership when a non-empty
filter list is given (`d.code ? d.code.toString() : ""`). -/
def applyFilters (diagnostics : List Diag) (severityThreshold : Option Nat)
    (ruleFilter : Option (List String)) : List Diag :=
  let f1 := match severityThreshold with
    | some t => diagnostics.filter (fun d => decide (d.severity ≤ t))
    | none => diagnostics
  match ruleFilter with
  | some rf =>
    if 0 < rf.length then
      f1.filter (fun d => rf.any (fun r => containsSub ((d.code.getD "").data) r.data))
    else f1
  | none => f1

/-- `DiagnosticUtility.filterAndSortDiagnostics`
(src/utils/diagnostics.ts lines 621-653): filter, then stable sort by
(severity, start line). -/
def filterAndSortDiagnostics (diagnostics : List Diag)
    (severityThreshold : Option Nat) (ruleFilter : Option (List String)) : List Diag :=
  diagSort (applyFilters diagnostics severityThreshold ruleFilter)

/-! ## Quick fix (CubtekQuickFixProvider.createNamingConventionFixAction) -/

/-- JavaScript `varName.replace(/^g_/, "")` for an arbitrary anchored
literal: strips one leading occurrence. -/
def stripLeadingOnce (pre s : List Char) : List Char :=
  if pre.isPrefixOf s then s.drop pre.length else s

/-- JavaScript `varName.charAt(0).toLowerCase() + varName.slice(1)`. -/
def lowerFirst : List Char → List Char
  | [] => []
  | c :: rest => c.toLower :: rest

/-- The corrected-identifier computation of
`createNamingConventionFixAction` (src/core/quickFix.ts lines 803-835):
inspect the diagnostic message for `"global variable"`, `"static
variable"` or `"parameter"`; otherwise keep the name. -/
def computeFixedName (message varName : List Char) : List Char :=
  if containsSub message (("global variable").data) then
    ("g_").data ++ stripLeadingOnce (("g_").data) varName
  else if containsSub message (("static variable").data) then
    ("s_").data ++ stripLeadingOnce (("s_").data) varName
  else if containsSub message (("parameter").data) then
    lowerFirst varName
  else varName

/-- A code action consisting of workspace-edit replacements
(range, new text). -/
structure CodeActionFix where
  title : List Char
  edits : List ((Nat × Nat × Nat × Nat) × List Char)
  deriving Repr, DecidableEq

/-- `CubtekQuickFixProvider.createNamingConventionFixAction`: one
replacement of the diagnostic's range by the corrected identifier.
`varName` is `document.getText(diagnostic.range)`. -/
def createNamingConventionFixAction (diagRange : Nat × Nat × Nat × Nat)
    (diagMessage varName : List Char) : CodeActionFix :=
  ⟨("Fix variable naming").data,
   [(diagRange, computeFixedName diagMessage varName)]⟩

/-- The synthetic document of claim C3: a function `longFn` whose body
spans `n` lines — signature and opening brace on line 0, `n - 2` one-
statement lines, and the closing brace alone on the last line. -/
def mkFnText (n : Nat) : List Char :=
  ("void longFn() \x7b\n").data ++
  (List.replicate (n - 2) (("a;\n").data)).flatten ++ ("\x7d").data

/-- The family of documents of claim C4's positive half: one global
declaration `static int <w>;` with an explicit qualifier, as the whole
document. -/
def gvDocQualified (w : List Char) : List Char :=
  ("static int ").data ++ (w ++ ';' :: [])

/-- The same declaration nested inside a function body: the opening brace
of `void f()` on line 0, the declaration on line 1 (brace depth 1 before
it), the closing brace on line 2. -/
def gvDocNested (w : List Char) : List Char :=
  ("void f() \x7b").data ++
  '\n' :: (("static int ").data ++ (w ++ ';' :: '\n' :: '\x7d' :: []))

/-! ## Helper lemmas -/

theorem runCustomRuleChecks_append (a b : List (Except String (List Diag))) :
    runCustomRuleChecks (a ++ b) = runCustomRuleChecks a ++ runCustomRuleChecks b := by
  induction a with
  | nil => rfl
  | cons x rest ih =>
    cases x with
    | ok ds => simp [runCustomRuleChecks, ih]
    | error e => simp [runCustomRuleChecks, ih]

theorem ruleErrorLog_append (a b : List (Except String (List Diag))) :
    ruleErrorLog (a ++ b) = ruleErrorLog a ++ ruleErrorLog b := by
  induction a with
  | nil => rfl
  | cons x rest ih =>
    cases x with
    | ok ds => simp [ruleErrorLog, ih]
    | error e => simp [ruleErrorLog, ih]

theorem stripLeadingOnce_append (p x : List Char) :
    stripLeadingOnce p (p ++ x) = x := by
  have hp : p.isPrefixOf (p ++ x) = true := by
    rw [List.isPrefixOf_iff_prefix]
    exact List.prefix_append p x
  simp [stripLeadingOnce, hp]

/-! ## Claim C1 -/

/-- C1: severity resolution.  The claim says an explicitly configured
per-rule severity is always returned.  The code evaluates
`severityMap[severityString] || Warning` where
`DiagnosticSeverity.Error = 0` is falsy, so a configured `"error"`
severity resolves to Warning (1), not Error (0), whatever the project
default. -/
theorem C1_severity_error_override_bug :
    resolveSeverity (some "error") "hint" = 1 ∧
    resolveSeverity (some "error") "hint" ≠ 0 := by decide

/-! ## Claim C2 -/

/-- C2 counterexample: with the external analyzer failing (`clang-tidy
not found`), a local rule that would have produced a diagnostic
contributes nothing — `checkDocument` returns the empty list, contrary to
the claim that local-rule diagnostics are still included. -/
theorem C2_counterexample :
    (checkDocument "c"
      (Except.error "clang-tidy not found. Please install clang-tidy.")
      [Except.ok [⟨0, 0, 0, 5, "naming", 1, "CubTEK", some "CUBTEK-NAME-001"⟩]]).diagnostics
      = []
    ∧ runCustomRuleChecks
        [Except.ok [⟨0, 0, 0, 5, "naming", 1, "CubTEK", some "CUBTEK-NAME-001"⟩]]
      = [⟨0, 0, 0, 5, "naming", 1, "CubTEK", some "CUBTEK-NAME-001"⟩] := by
  exact ⟨rfl, rfl⟩

/-- C2 (amended): when the external analyzer invocation errors on a C/C++
document, `checkDocument` shows exactly one user-visible error message
and returns normally (no crash), but it aborts the whole check: the local
rules are not invoked and the returned diagnostic list is empty. -/
theorem C2_amended (languageId : String) (e : String)
    (ruleResults : List (Except String (List Diag)))
    (h : languageId = "c" ∨ languageId = "cpp") :
    checkDocument languageId (Except.error e) ruleResults
      = ⟨[], ["Checker error: " ++ e], true, false⟩ := by
  rcases h with h | h <;> subst h <;> simp [checkDocument]

/-- Witness for C2 at a concrete input. -/
theorem C2_witness :
    checkDocument "c" (Except.error "boom") []
      = ⟨[], ["Checker error: boom"], true, false⟩ :=
  C2_amended "c" "boom" [] (Or.inl rfl)

/-! ## Claim C3 -/

set_option maxRecDepth 100000 in
/-- C3: the claim quantifies over the configured `maxLines = N` and calls
the default of 50 configurable.  The rule hard-codes `maxLines = 50` and
never reads the configuration's `params.maxLines`, so with a configured
limit of 10 a 20-line function still produces no finding; the threshold
sits at 50 regardless: 50 body lines give nothing and 51 give exactly one
finding whose message cites 51 and 50. -/
theorem C3_maxlines_hardcoded_bug :
    functionLengthCheck (mkFnText 20) = []
    ∧ functionLengthCheck (mkFnText 50) = []
    ∧ functionLengthCheck (mkFnText 51)
      = [⟨0, 0, 0, 6, flMsg (("longFn").data) 51 50⟩] := by
  exact ⟨by decide, by decide, by decide⟩

/-! ## Claim C7 -/

/-- C7: one throwing rule is caught and logged, its diagnostics are
dropped, every other rule's diagnostics and the already collected
external-tool diagnostics survive, concatenated in order. -/
theorem C7_rule_isolation (tds : List Diag)
    (rs1 rs2 : List (Except String (List Diag))) (e : String) :
    (checkDocument "c" (Except.ok tds) (rs1 ++ Except.error e :: rs2)).diagnostics
      = tds ++ runCustomRuleChecks rs1 ++ runCustomRuleChecks rs2
    ∧ e ∈ ruleErrorLog (rs1 ++ Except.error e :: rs2) := by
  constructor
  · show (checkDocument "c" (Except.ok tds) (rs1 ++ Except.error e :: rs2)).diagnostics = _
    simp [checkDocument, runCustomRuleChecks_append, runCustomRuleChecks]
  · simp [ruleErrorLog_append, ruleErrorLog]

/-! ## Claim C10 -/

/-- C10: a document whose language is neither `c` nor `cpp` yields the
empty diagnostic list, with neither the external analyzer nor any rule
invoked. -/
theorem C10_language_gate (languageId : String)
    (tidy : Except String (List Diag))
    (ruleResults : List (Except String (List Diag)))
    (h1 : languageId ≠ "c") (h2 : languageId ≠ "cpp") :
    checkDocument languageId tidy ruleResults = ⟨[], [], false, false⟩ := by
  simp [checkDocument, h1, h2]

/-- Witness for C10 at a concrete input. -/
theorem C10_witness :
    checkDocument "python" (Except.ok []) [] = ⟨[], [], false, false⟩ :=
  C10_language_gate "python" (Except.ok []) [] (by decide) (by decide)

/-! ## Claim C9 -/

/-- C9: for a diagnostic whose message contains `"global variable"`, the
quick fix is a single replacement of the diagnostic range by `g_`
prepended to the range text with one existing leading `g_` stripped
first, and the corrected-identifier computation is idempotent. -/
theorem C9_naming_fix (diagRange : Nat × Nat × Nat × Nat)
    (message varName : List Char)
    (h : containsSub message (("global variable").data) = true) :
    (createNamingConventionFixAction diagRange message varName).edits
      = [(diagRange, ("g_").data ++ stripLeadingOnce (("g_").data) varName)]
    ∧ computeFixedName message (computeFixedName message varName)
      = computeFixedName message varName := by
  constructor
  · simp [createNamingConventionFixAction, computeFixedName, h]
  · simp only [computeFixedName, h, if_true, if_pos]
    rw [stripLeadingOnce_append]

/-- Witness for C9 at a concrete input. -/
theorem C9_witness :
    computeFixedName (("global variable \"count\"").data)
        (computeFixedName (("global variable \"count\"").data) (("count").data))
      = computeFixedName (("global variable \"count\"").data) (("count").data) :=
  (C9_naming_fix (0, 0, 0, 5) (("global variable \"count\"").data) (("count").data)
    (by decide)).2

/-! ## Claim C4 (counterexample) -/

/-- C4 counterexample: `int count;` as a whole document is a global
declaration in the spec's sense (the Pattern Library shape matches, the
line is at file scope with no parenthesis, and `count` lacks the `g_`
prefix), yet the rule produces no finding at all: the compiled pattern
demands whitespace before the type preceded by a word character, or a
leading `extern`/`static`, neither of which holds at the start of the
document. -/
theorem C4_counterexample :
    specLooksLikeGlobalDeclaration (("int count;").data) = true
    ∧ isInsideFunction (("int count;").data) 0 = false
    ∧ '(' ∉ lineAtText (("int count;").data) 0
    ∧ ("g_").data.isPrefixOf (("count").data) = false
    ∧ namingConventionCheck (("int count;").data) = [] := by decide

/-! ## Claim C5 (counterexample) -/

/-- C5 counterexample: in the balanced text `{a} {b}`, offset 1 is at or
before the opening brace at offset 4, yet the scan returns `none`: the
closing brace at offset 2 drives the counter negative, so the counter
never "returns to zero after having been positive". -/
theorem C5_counterexample :
    balancedBraces (("\x7ba\x7d \x7bb\x7d").data)
    ∧ (("\x7ba\x7d \x7bb\x7d").data).get? 4 = some '\x7b'
    ∧ findFunctionEnd (("\x7ba\x7d \x7bb\x7d").data) 1 = none := by decide

/-! ## Claim C6 (counterexample) -/

/-- C6 counterexample: the claim maps any level other than
error/warning/note/remark to Information (2); the adapter's `default`
branch yields Warning (1), shown here at level `fatal`. -/
theorem C6_counterexample :
    (parseClangTidyDiagnostic (some (("int x;").data)) 10 5
        "unused variable" "some-check" "fatal").severity = 1
    ∧ (parseClangTidyDiagnostic (some (("int x;").data)) 10 5
        "unused variable" "some-check" "fatal").severity ≠ 2 := by decide

/-! ## Claim C8: filterAndSortDiagnostics -/

theorem diagLe_total (a b : Diag) : diagLe a b = true ∨ diagLe b a = true := by
  simp only [diagLe, decide_eq_true_eq]
  omega

theorem diagLe_trans (a b c : Diag) (h1 : diagLe a b = true)
    (h2 : diagLe b c = true) : diagLe a c = true := by
  simp only [diagLe, decide_eq_true_eq] at h1 h2 ⊢
  omega

theorem diagLe_of_key_eq (a b : Diag) (h1 : a.severity = b.severity)
    (h2 : a.startLine = b.startLine) : diagLe a b = true := by
  simp only [diagLe, decide_eq_true_eq]
  omega

theorem mem_sortInsert (x a : Diag) (l : List Diag) :
    a ∈ sortInsert x l ↔ a = x ∨ a ∈ l := by
  induction l with
  | nil => simp [sortInsert]
  | cons y ys ih =>
    by_cases h : diagLe x y = true <;> simp [sortInsert, h, ih] <;> tauto

theorem mem_diagSort (a : Diag) (l : List Diag) : a ∈ diagSort l ↔ a ∈ l := by
  induction l with
  | nil => simp [diagSort]
  | cons x xs ih => simp [diagSort, mem_sortInsert, ih]

theorem sortInsert_pairwise (x : Diag) (l : List Diag)
    (h : l.Pairwise (fun a b => diagLe a b = true)) :
    (sortInsert x l).Pairwise (fun a b => diagLe a b = true) := by
  induction l with
  | nil => simp [sortInsert]
  | cons y ys ih =>
    rw [List.pairwise_cons] at h
    by_cases hxy : diagLe x y = true
    · rw [sortInsert, if_pos hxy, List.pairwise_cons]
      refine ⟨?_, by rw [List.pairwise_cons]; exact h⟩
      intro b hb
      rcases List.mem_cons.mp hb with rfl | hb
      · exact hxy
      · exact diagLe_trans x y b hxy (h.1 b hb)
    · rw [sortInsert, if_neg hxy, List.pairwise_cons]
      refine ⟨?_, ih h.2⟩
      intro b hb
      rcases (mem_sortInsert x b ys).mp hb with rfl | hb
      · rcases diagLe_total b y with h' | h'
        · exact absurd h' hxy
        · exact h'
      · exact h.1 b hb

theorem diagSort_pairwise (l : List Diag) :
    (diagSort l).Pairwise (fun a b => diagLe a b = true) := by
  induction l with
  | nil => simp [diagSort]
  | cons x xs ih => exact sortInsert_pairwise x (diagSort xs) ih

theorem diagSort_of_pairwise (l : List Diag)
    (h : l.Pairwise (fun a b => diagLe a b = true)) : diagSort l = l := by
  induction l with
  | nil => rfl
  | cons x xs ih =>
    rw [List.pairwise_cons] at h
    rw [diagSort, ih h.2]
    cases xs with
    | nil => rfl
    | cons y ys => rw [sortInsert, if_pos (h.1 y (List.mem_cons_self y ys))]

theorem filter_sortInsert (sev line : Nat) (x : Diag) (l : List Diag) :
    (sortInsert x l).filter (fun d => decide (d.severity = sev ∧ d.startLine = line))
      = if decide (x.severity = sev ∧ x.startLine = line) then
          x :: l.filter (fun d => decide (d.severity = sev ∧ d.startLine = line))
        else l.filter (fun d => decide (d.severity = sev ∧ d.startLine = line)) := by
  induction l with
  | nil => simp [sortInsert, List.filter_cons]
  | cons y ys ih =>
    by_cases hxy : diagLe x y = true
    · rw [sortInsert, if_pos hxy]
      simp [List.filter_cons]
    · rw [sortInsert, if_neg hxy, List.filter_cons, ih]
      by_cases hx : (x.severity = sev ∧ x.startLine = line)
      · have hy : ¬ (y.severity = sev ∧ y.startLine = line) := by
          intro hy
          exact hxy (diagLe_of_key_eq x y (hx.1.trans hy.1.symm)
            (hx.2.trans hy.2.symm))
        simp [List.filter_cons, hx, hy]
      · simp [List.filter_cons, hx]

theorem filter_diagSort (sev line : Nat) (l : List Diag) :
    (diagSort l).filter (fun d => decide (d.severity = sev ∧ d.startLine = line))
      = l.filter (fun d => decide (d.severity = sev ∧ d.startLine = line)) := by
  induction l with
  | nil => rfl
  | cons x xs ih =>
    rw [diagSort, filter_sortInsert, ih]
    by_cases hx : (x.severity = sev ∧ x.startLine = line)
    · simp [hx]
    · simp [hx]

theorem applyFilters_as_filter (ds : List Diag) (th : Option Nat)
    (rf : Option (List String)) :
    ∃ p : Diag → Bool, (∀ l, applyFilters l th rf = l.filter p) := by
  cases th with
  | none =>
    cases rf with
    | none => exact ⟨fun _ => true, fun l => by simp [applyFilters]⟩
    | some rl =>
      by_cases h : 0 < rl.length
      · exact ⟨fun d => rl.any (fun r => containsSub ((d.code.getD "").data) r.data),
          fun l => by simp [applyFilters, h]⟩
      · exact ⟨fun _ => true, fun l => by simp [applyFilters, h]⟩
  | some t =>
    cases rf with
    | none => exact ⟨fun d => decide (d.severity ≤ t), fun l => by simp [applyFilters]⟩
    | some rl =>
      by_cases h : 0 < rl.length
      · refine ⟨fun d => (rl.any (fun r => containsSub ((d.code.getD "").data) r.data))
          && decide (d.severity ≤ t), fun l => ?_⟩
        simp [applyFilters, h, List.filter_filter]
      · exact ⟨fun d => decide (d.severity ≤ t), fun l => by simp [applyFilters, h]⟩

/-- C8: `filterAndSortDiagnostics` is idempotent for every threshold and
rule-id filter; its output is sorted by the key (severity ascending,
start line ascending); and the sort is stable: for every key, the
elements carrying that key appear in the output exactly as they appear in
the filtered input. -/
theorem C8_filterAndSort_idempotent (ds : List Diag) (th : Option Nat)
    (rf : Option (List String)) :
    filterAndSortDiagnostics (filterAndSortDiagnostics ds th rf) th rf
      = filterAndSortDiagnostics ds th rf
    ∧ (filterAndSortDiagnostics ds th rf).Pairwise (fun a b => diagLe a b = true)
    ∧ ∀ sev line,
        (filterAndSortDiagnostics ds th rf).filter
          (fun d => decide (d.severity = sev ∧ d.startLine = line))
        = (applyFilters ds th rf).filter
          (fun d => decide (d.severity = sev ∧ d.startLine = line)) := by
  obtain ⟨p, hp⟩ := applyFilters_as_filter ds th rf
  refine ⟨?_, diagSort_pairwise _, fun sev line => filter_diagSort sev line _⟩
  show diagSort (applyFilters (diagSort (applyFilters ds th rf)) th rf) = _
  have h1 : applyFilters (diagSort (applyFilters ds th rf)) th rf
      = diagSort (applyFilters ds th rf) := by
    rw [hp]
    apply List.filter_eq_self.mpr
    intro a ha
    have : a ∈ applyFilters ds th rf := (mem_diagSort a _).mp ha
    rw [hp] at this
    exact (List.mem_filter.mp this).2
  rw [h1, diagSort_of_pairwise _ (diagSort_pairwise _)]
  rfl

/-! ## Claim C6: the external-output adapter -/

theorem indexOfFromAux_shift (ch : Char) (l : List Char) (i : Nat) :
    indexOfFromAux ch l i = (indexOfFromAux ch l 0).map (fun k => k + i) := by
  induction l generalizing i with
  | nil => rfl
  | cons c rest ih =>
    by_cases h : c = ch
    · simp [indexOfFromAux, h]
    · cases hb : indexOfFromAux ch rest 0 with
      | none => simp [indexOfFromAux, h, ih (i + 1), ih 1, hb]
      | some k =>
        simp [indexOfFromAux, h, ih (i + 1), ih 1, hb]
        omega

theorem indexOfFromAux_spec (ch : Char) (l : List Char) :
    (∀ k, indexOfFromAux ch l 0 = some k →
        l.get? k = some ch ∧ ∀ j, j < k → l.get? j ≠ some ch)
    ∧ (indexOfFromAux ch l 0 = none → ∀ j, l.get? j ≠ some ch) := by
  induction l with
  | nil =>
    constructor
    · intro k h
      simp [indexOfFromAux] at h
    · intro _ j
      simp
  | cons c rest ih =>
    by_cases h : c = ch
    · subst h
      constructor
      · intro k hk
        simp [indexOfFromAux] at hk
        subst hk
        exact ⟨rfl, by omega⟩
      · intro hk
        simp [indexOfFromAux] at hk
    · constructor
      · intro k hk
        rw [indexOfFromAux, if_neg h, indexOfFromAux_shift] at hk
        cases hb : indexOfFromAux ch rest 0 with
        | none => rw [hb] at hk; simp at hk
        | some k' =>
          rw [hb] at hk
          simp at hk
          subst hk
          refine ⟨(ih.1 k' hb).1, ?_⟩
          intro j hj
          cases j with
          | zero => simpa using fun hc => h hc
          | succ j' =>
            have : j' < k' := by omega
            simpa using (ih.1 k' hb).2 j' this
      · intro hk j
        rw [indexOfFromAux, if_neg h, indexOfFromAux_shift] at hk
        cases hb : indexOfFromAux ch rest 0 with
        | some k' => rw [hb] at hk; simp at hk
        | none =>
          cases j with
          | zero => simpa using fun hc => h hc
          | succ j' => simpa using ih.2 hb j'

theorem indexOfFrom_spec (l : List Char) (ch : Char) (start : Nat) :
    (∀ idx, indexOfFrom l ch start = some idx →
        start ≤ idx ∧ l.get? idx = some ch ∧
        ∀ i, start ≤ i → i < idx → l.get? i ≠ some ch)
    ∧ (indexOfFrom l ch start = none → ∀ j, start ≤ j → l.get? j ≠ some ch) := by
  constructor
  · intro idx hidx
    rw [indexOfFrom] at hidx
    cases hb : indexOfFromAux ch (l.drop start) 0 with
    | none => rw [hb] at hidx; simp at hidx
    | some k =>
      rw [hb] at hidx
      simp at hidx
      subst hidx
      have hspec := (indexOfFromAux_spec ch (l.drop start)).1 k hb
      refine ⟨by omega, ?_, ?_⟩
      · rw [← List.get?_drop]
        exact hspec.1
      · intro i hi1 hi2
        have : (l.drop start).get? (i - start) ≠ some ch := hspec.2 (i - start) (by omega)
        rw [List.get?_drop] at this
        have heq : start + (i - start) = i := by omega
        rwa [heq] at this
  · intro hnone j hj
    rw [indexOfFrom] at hnone
    cases hb : indexOfFromAux ch (l.drop start) 0 with
    | some k => rw [hb] at hnone; simp at hnone
    | none =>
      have := (indexOfFromAux_spec ch (l.drop start)).2 hb (j - start)
      rw [List.get?_drop] at this
      have heq : start + (j - start) = j := by omega
      rwa [heq] at this

/-- C6 (amended): the adapter places the diagnostic at the 0-based
position (line-1, col-1) on that single line, carries the message, the
`CubTEK (clang-tidy)` source and the rule id, and maps severities
error→Error, warning→Warning, note/remark→Information — but any other
level defaults to Warning, not Information.  The end column is one past
the first `;` found from the reported 0-based column when that `;` is not
at column 0; otherwise it is the line length. -/
theorem C6_amended (lineText : List Char) (line column : Nat)
    (message ruleId level : String) (d : Diag) (lv : String)
    (h1 : 1 ≤ line) (h2 : 1 ≤ column)
    (hd : d = parseClangTidyDiagnostic (some lineText) line column message ruleId level)
    (hlv : lv = String.mk (level.data.map Char.toLower)) :
    d.startLine = line - 1 ∧ d.startCol = column - 1 ∧ d.endLine = line - 1
    ∧ d.message = message ∧ d.source = "CubTEK (clang-tidy)" ∧ d.code = some ruleId
    ∧ (lv = "error" → d.severity = 0)
    ∧ (lv = "warning" → d.severity = 1)
    ∧ (lv = "note" ∨ lv = "remark" → d.severity = 2)
    ∧ (lv ≠ "error" → lv ≠ "warning" → lv ≠ "note" → lv ≠ "remark" → d.severity = 1)
    ∧ ((∃ j, column - 1 ≤ j ∧ 0 < j ∧ lineText.get? j = some ';'
          ∧ (∀ i, column - 1 ≤ i → i < j → lineText.get? i ≠ some ';')
          ∧ d.endCol = j + 1)
       ∨ (d.endCol = lineText.length
          ∧ ((∀ j, column - 1 ≤ j → lineText.get? j ≠ some ';')
             ∨ (column - 1 = 0 ∧ lineText.get? 0 = some ';')))) := by
  subst hd hlv
  refine ⟨rfl, rfl, rfl, rfl, rfl, rfl, ?_, ?_, ?_, ?_, ?_⟩
  · intro h
    simp [parseClangTidyDiagnostic, tidySeverity] at h ⊢
    simp [h]
  · intro h
    simp [parseClangTidyDiagnostic, tidySeverity] at h ⊢
    simp [h]
  · intro h
    simp [parseClangTidyDiagnostic, tidySeverity] at h ⊢
    rcases h with h | h <;> rw [h] <;> simp
  · intro he hw hn hr
    simp at he hw hn hr
    simp [parseClangTidyDiagnostic, tidySeverity, he, hw, hn, hr]
  · have hend : (parseClangTidyDiagnostic (some lineText) line column message ruleId
        level).endCol = (match indexOfFrom lineText ';' (column - 1) with
      | some idx => if 0 < idx then idx + 1 else lineText.length
      | none => lineText.length) := rfl
    cases hidx : indexOfFrom lineText ';' (column - 1) with
    | some idx =>
      rw [hidx] at hend
      have hspec := (indexOfFrom_spec lineText ';' (column - 1)).1 idx hidx
      by_cases hpos : 0 < idx
      · left
        exact ⟨idx, hspec.1, hpos, hspec.2.1, hspec.2.2, by rw [hend]; simp [hpos]⟩
      · right
        have hz : idx = 0 := by omega
        subst hz
        refine ⟨by rw [hend]; simp, Or.inr ⟨by omega, hspec.2.1⟩⟩
    | none =>
      rw [hidx] at hend
      right
      exact ⟨hend, Or.inl ((indexOfFrom_spec lineText ';' (column - 1)).2 hidx)⟩

/-- Witness for C6 at the spec's scenario: a warning at line 10, column
5, of a line whose first `;` from column 4 sits at index 11. -/
theorem C6_witness :
    (parseClangTidyDiagnostic (some (("  int x = 0;").data)) 10 5
        "unused variable" "clang-diagnostic-unused-variable" "warning").startLine = 9
    ∧ (parseClangTidyDiagnostic (some (("  int x = 0;").data)) 10 5
        "unused variable" "clang-diagnostic-unused-variable" "warning").startCol = 4
    ∧ (parseClangTidyDiagnostic (some (("  int x = 0;").data)) 10 5
        "unused variable" "clang-diagnostic-unused-variable" "warning").severity = 1 := by
  have h := C6_amended (("  int x = 0;").data) 10 5
    "unused variable" "clang-diagnostic-unused-variable" "warning"
    (parseClangTidyDiagnostic (some (("  int x = 0;").data)) 10 5
      "unused variable" "clang-diagnostic-unused-variable" "warning")
    "warning" (by decide) (by decide) rfl rfl
  exact ⟨h.1, h.2.1, h.2.2.2.2.2.2.2.1 rfl⟩

/-! ## Claim C5: the structural scanner -/

theorem braceFoldl (l : List Char) : ∀ n : Int, l.foldl braceStep n = n + braceDelta l := by
  induction l with
  | nil => intro n; simp [braceDelta]
  | cons c rest ih =>
    intro n
    have hstep : ∀ m : Int, braceStep m c = m + braceStep 0 c := by
      intro m
      simp only [braceStep]
      split <;> [omega; (split <;> omega)]
    show rest.foldl braceStep (braceStep n c) = n + (c :: rest).foldl braceStep 0
    rw [ih (braceStep n c)]
    show braceStep n c + braceDelta rest = n + rest.foldl braceStep (braceStep 0 c)
    rw [ih (braceStep 0 c), hstep n]
    omega

theorem braceDelta_cons (c : Char) (l : List Char) :
    braceDelta (c :: l) = braceStep 0 c + braceDelta l := by
  show (c :: l).foldl braceStep 0 = _
  show l.foldl braceStep (braceStep 0 c) = _
  rw [braceFoldl]

theorem braceDelta_append (a b : List Char) :
    braceDelta (a ++ b) = braceDelta a + braceDelta b := by
  show (a ++ b).foldl braceStep 0 = _
  rw [List.foldl_append, braceFoldl]
  show braceDelta a + braceDelta b = _
  rfl

theorem braceDelta_no_braces (l : List Char)
    (h : ∀ c ∈ l, c ≠ '\x7b' ∧ c ≠ '\x7d') : braceDelta l = 0 := by
  induction l with
  | nil => rfl
  | cons c rest ih =>
    have hc := h c (List.mem_cons_self c rest)
    rw [braceDelta_cons, ih (fun d hd => h d (List.mem_cons_of_mem c hd))]
    simp [braceStep, hc.1, hc.2]

theorem braceSlice_sub (text : List Char) (a b : Nat) (hab : a ≤ b) :
    braceSlice text a b = braceDelta (text.take b) - braceDelta (text.take a) := by
  have h0 : a + (b - a) = b := by omega
  have h1 : text.take b = text.take a ++ (text.drop a).take (b - a) := by
    conv_lhs => rw [← h0]
    rw [List.take_add]
  rw [braceSlice, h1, braceDelta_append]
  omega

theorem findAux_no_open (s : List Char) : ∀ (i : Nat) (cnt : Int),
    (∀ c ∈ s, c ≠ '\x7b') → findFunctionEndAux s i cnt false = none := by
  induction s with
  | nil => intro i cnt _; rfl
  | cons c rest ih =>
    intro i cnt h
    have hc : c ≠ '\x7b' := h c (List.mem_cons_self c rest)
    have hrest : ∀ d ∈ rest, d ≠ '\x7b' := fun d hd => h d (List.mem_cons_of_mem c hd)
    by_cases h2 : c = '\x7d'
    · simp only [findFunctionEndAux, if_neg hc, if_pos h2]
      have : ¬ (false = true ∧ cnt - 1 = 0) := by simp
      rw [if_neg this]
      exact ih (i + 1) (cnt - 1) hrest
    · simp only [findFunctionEndAux, if_neg hc, if_neg h2]
      exact ih (i + 1) cnt hrest

theorem brace_open_one : braceStep 0 '\x7b' = 1 := by decide

theorem brace_close_neg : braceStep 0 '\x7d' = -1 := by decide

theorem findAux_pos (s : List Char) : ∀ (i : Nat) (c : Int), 0 < c →
    (∃ k, k < s.length ∧ findFunctionEndAux s i c true = some (i + k)
      ∧ s.get? k = some '\x7d' ∧ c + braceDelta (s.take (k + 1)) = 0
      ∧ ∀ m, m ≤ k → 0 < c + braceDelta (s.take m))
    ∨ (findFunctionEndAux s i c true = none
      ∧ ∀ m, m ≤ s.length → 0 < c + braceDelta (s.take m)) := by
  induction s with
  | nil =>
    intro i c hc
    right
    refine ⟨rfl, ?_⟩
    intro m hm
    have hm0 : m = 0 := by simpa using hm
    subst hm0
    simpa [braceDelta] using hc
  | cons ch rest ih =>
    intro i c hc
    by_cases h1 : ch = '\x7b'
    · subst h1
      have hstep : findFunctionEndAux ('\x7b' :: rest) i c true
          = findFunctionEndAux rest (i + 1) (c + 1) true := by
        simp [findFunctionEndAux]
      rcases ih (i + 1) (c + 1) (by omega) with
        ⟨k, hk, heq, hget, hzero, hpos⟩ | ⟨heq, hpos⟩
      · left
        refine ⟨k + 1, by simp only [List.length_cons]; omega, ?_, by simpa using hget, ?_, ?_⟩
        · rw [hstep, heq]
          congr 1
          omega
        · rw [List.take_succ_cons, braceDelta_cons, brace_open_one]
          omega
        · intro m hm
          cases m with
          | zero => simpa [braceDelta] using hc
          | succ m' =>
            rw [List.take_succ_cons, braceDelta_cons, brace_open_one]
            have := hpos m' (by omega)
            omega
      · right
        refine ⟨by rw [hstep, heq], ?_⟩
        intro m hm
        cases m with
        | zero => simpa [braceDelta] using hc
        | succ m' =>
          rw [List.take_succ_cons, braceDelta_cons, brace_open_one]
          have := hpos m' (by simpa using hm)
          omega
    · by_cases h2 : ch = '\x7d'
      · subst h2
        by_cases hc1 : c = 1
        · subst hc1
          left
          refine ⟨0, by simp, ?_, by simp, ?_, ?_⟩
          · simp [findFunctionEndAux]
          · rw [List.take_succ_cons, List.take_zero, braceDelta_cons]
            simp [braceStep, braceDelta]
          · intro m hm
            have hm0 : m = 0 := by omega
            subst hm0
            simp [braceDelta]
        · have hstep : findFunctionEndAux ('\x7d' :: rest) i c true
              = findFunctionEndAux rest (i + 1) (c - 1) true := by
            have hne : ¬ (true = true ∧ c - 1 = 0) := by
              simp
              omega
            have h7 : ('\x7d' : Char) ≠ '\x7b' := by decide
            rw [findFunctionEndAux, if_neg h7, if_pos rfl, if_neg hne]
          rcases ih (i + 1) (c - 1) (by omega) with
            ⟨k, hk, heq, hget, hzero, hpos⟩ | ⟨heq, hpos⟩
          · left
            refine ⟨k + 1, by simp only [List.length_cons]; omega, ?_, by simpa using hget, ?_, ?_⟩
            · rw [hstep, heq]
              congr 1
              omega
            · rw [List.take_succ_cons, braceDelta_cons, brace_close_neg]
              omega
            · intro m hm
              cases m with
              | zero => simpa [braceDelta] using hc
              | succ m' =>
                rw [List.take_succ_cons, braceDelta_cons, brace_close_neg]
                have := hpos m' (by omega)
                omega
          · right
            refine ⟨by rw [hstep, heq], ?_⟩
            intro m hm
            cases m with
            | zero => simpa [braceDelta] using hc
            | succ m' =>
              rw [List.take_succ_cons, braceDelta_cons, brace_close_neg]
              have := hpos m' (by simpa using hm)
              omega
      · have hstep : findFunctionEndAux (ch :: rest) i c true
            = findFunctionEndAux rest (i + 1) c true := by
          simp [findFunctionEndAux, h1, h2]
        have hdelta : braceStep 0 ch = 0 := by simp [braceStep, h1, h2]
        rcases ih (i + 1) c hc with
          ⟨k, hk, heq, hget, hzero, hpos⟩ | ⟨heq, hpos⟩
        · left
          refine ⟨k + 1, by simp only [List.length_cons]; omega, ?_, by simpa using hget, ?_, ?_⟩
          · rw [hstep, heq]
            congr 1
            omega
          · rw [List.take_succ_cons, braceDelta_cons, hdelta]
            omega
          · intro m hm
            cases m with
            | zero => simpa [braceDelta] using hc
            | succ m' =>
              rw [List.take_succ_cons, braceDelta_cons, hdelta]
              have := hpos m' (by omega)
              omega
        · right
          refine ⟨by rw [hstep, heq], ?_⟩
          intro m hm
          cases m with
          | zero => simpa [braceDelta] using hc
          | succ m' =>
            rw [List.take_succ_cons, braceDelta_cons, hdelta]
            have := hpos m' (by simpa using hm)
            omega

theorem findAux_skip (nb : List Char) : ∀ (rest : List Char) (i : Nat) (cnt : Int)
    (fnd : Bool), (∀ c ∈ nb, c ≠ '\x7b' ∧ c ≠ '\x7d') →
    findFunctionEndAux (nb ++ rest) i cnt fnd
      = findFunctionEndAux rest (i + nb.length) cnt fnd := by
  induction nb with
  | nil => intro rest i cnt fnd _; simp
  | cons c nb' ih =>
    intro rest i cnt fnd h
    have hc := h c (List.mem_cons_self c nb')
    have hskip : findFunctionEndAux ((c :: nb') ++ rest) i cnt fnd
        = findFunctionEndAux (nb' ++ rest) (i + 1) cnt fnd := by
      simp [findFunctionEndAux, hc.1, hc.2]
    rw [hskip, ih rest (i + 1) cnt fnd (fun d hd => h d (List.mem_cons_of_mem c hd))]
    congr 1
    simp
    omega

/-- C5 (amended): `findFunctionEnd` never throws (it is a total function);
for any text with no opening brace at or after the start offset it
returns `none`; and on well-balanced text, when the first brace at or
after the start offset is an opening brace, it returns the offset of that
brace's matching closing brace — the first position at which the brace
count of the scanned slice returns to zero after having been positive.
If a closing brace lies between the offset and the first opening brace
(as in the counterexample), the counter dips negative first and the scan
can return `none` even on balanced text. -/
theorem C5_amended (text : List Char) (start : Nat) :
    ((∀ k, start ≤ k → text.get? k ≠ some '\x7b') →
        findFunctionEnd text start = none)
    ∧ (balancedBraces text → ∀ o, start ≤ o → text.get? o = some '\x7b' →
        (∀ k, start ≤ k → k < o →
            text.get? k ≠ some '\x7b' ∧ text.get? k ≠ some '\x7d') →
        ∃ j, findFunctionEnd text start = some j ∧ o < j
          ∧ text.get? j = some '\x7d'
          ∧ braceSlice text start (j + 1) = 0
          ∧ ∀ m, o ≤ m → m < j → 0 < braceSlice text start (m + 1)) := by
  constructor
  · intro hno
    apply findAux_no_open
    intro c hcmem
    obtain ⟨idx, hidx⟩ := List.mem_iff_get?.mp hcmem
    rw [List.get?_drop] at hidx
    intro hceq
    subst hceq
    exact hno (start + idx) (by omega) hidx
  · intro hbal o hso ho hfirst
    have holt : o < text.length := by
      rcases List.get?_eq_some.mp ho with ⟨h, _⟩
      exact h
    set nb := (text.drop start).take (o - start) with hnb
    have hnblen : nb.length = o - start := by
      rw [hnb, List.length_take, List.length_drop]
      omega
    have hnbchars : ∀ c ∈ nb, c ≠ '\x7b' ∧ c ≠ '\x7d' := by
      intro c hcmem
      obtain ⟨idx, hidx⟩ := List.mem_iff_get?.mp hcmem
      have hidxlt : idx < o - start := by
        rcases List.get?_eq_some.mp hidx with ⟨hl, _⟩
        omega
      rw [hnb, List.get?_take hidxlt, List.get?_drop] at hidx
      have hf := hfirst (start + idx) (by omega) (by omega)
      constructor
      · intro hceq
        subst hceq
        exact hf.1 hidx
      · intro hceq
        subst hceq
        exact hf.2 hidx
    have hdecomp : text.drop start = nb ++ '\x7b' :: text.drop (o + 1) := by
      have h1 : text.drop start = nb ++ (text.drop start).drop (o - start) :=
        (List.take_append_drop (o - start) (text.drop start)).symm
      have h2 : (text.drop start).drop (o - start) = text.drop o := by
        rw [List.drop_drop]
        congr 1
        omega
      have h3 : text.drop o = '\x7b' :: text.drop (o + 1) := by
        have hg : text.get? o = some (text.get ⟨o, holt⟩) := List.get?_eq_get holt
        rw [ho] at hg
        injection hg with hgi
        rw [List.drop_eq_get_cons holt, ← hgi]
      rw [h1, h2, h3]
    have hchain : findFunctionEnd text start
        = findFunctionEndAux (text.drop (o + 1)) (o + 1) 1 true := by
      rw [findFunctionEnd, hdecomp, findAux_skip nb _ _ _ _ hnbchars]
      have hsn : start + nb.length = o := by omega
      rw [hsn, findFunctionEndAux, if_pos rfl]
      norm_num
    have hPstart : 0 ≤ braceDelta (text.take start) := hbal.2 start (by omega)
    have htakeo : braceDelta (text.take o) = braceDelta (text.take start) := by
      have h1 : text.take o = text.take start ++ nb := by
        have harith : start + (o - start) = o := by omega
        conv_lhs => rw [← harith]
        rw [List.take_add]
      rw [h1, braceDelta_append, braceDelta_no_braces nb hnbchars]
      omega
    have ho' : text[o]? = some '\x7b' := by
      rw [← List.get?_eq_getElem?]
      exact ho
    have htakeo1 : braceDelta (text.take (o + 1))
        = braceDelta (text.take start) + 1 := by
      rw [List.take_succ, ho', braceDelta_append, htakeo]
      have : braceDelta (Option.toList (some '\x7b')) = 1 := by decide
      rw [this]
    have hrdelta : braceDelta (text.take (o + 1)) + braceDelta (text.drop (o + 1)) = 0 := by
      rw [← braceDelta_append, List.take_append_drop]
      exact hbal.1
    rcases findAux_pos (text.drop (o + 1)) (o + 1) 1 (by omega) with
      ⟨k, hk, heq, hget, hzero, hpos⟩ | ⟨heq, hpos⟩
    · refine ⟨o + 1 + k, by rw [hchain, heq], by omega, ?_, ?_, ?_⟩
      · rw [← List.get?_drop]
        exact hget
      · rw [braceSlice_sub text start _ (by omega)]
        have harith : (o + 1) + (k + 1) = o + 1 + k + 1 := by omega
        have htake : braceDelta (text.take (o + 1 + k + 1))
            = braceDelta (text.take (o + 1))
              + braceDelta ((text.drop (o + 1)).take (k + 1)) := by
          conv_lhs => rw [← harith]
          rw [List.take_add, braceDelta_append]
        rw [htake, htakeo1]
        omega
      · intro m hom hmj
        rw [braceSlice_sub text start _ (by omega)]
        have harith : (o + 1) + (m - o) = m + 1 := by omega
        have htake : braceDelta (text.take (m + 1))
            = braceDelta (text.take (o + 1))
              + braceDelta ((text.drop (o + 1)).take (m - o)) := by
          conv_lhs => rw [← harith]
          rw [List.take_add, braceDelta_append]
        have hmo := hpos (m - o) (by omega)
        rw [htake, htakeo1]
        omega
    · exfalso
      have hend := hpos (text.drop (o + 1)).length (le_refl _)
      rw [List.take_length] at hend
      omega

/-- Witness for C5 at concrete inputs: `xy` has no opening brace, and in
`x{y}` the scan from offset 0 finds the matching brace of the opener at
offset 1. -/
theorem C5_witness :
    findFunctionEnd (("xy").data) 0 = none
    ∧ ∃ j, findFunctionEnd (("x\x7by\x7d").data) 0 = some j ∧ 1 < j
        ∧ (("x\x7by\x7d").data).get? j = some '\x7d'
        ∧ braceSlice (("x\x7by\x7d").data) 0 (j + 1) = 0
        ∧ ∀ m, 1 ≤ m → m < j → 0 < braceSlice (("x\x7by\x7d").data) 0 (m + 1) :=
  ⟨(C5_amended (("xy").data) 0).1 (by
      intro k _ hk
      have h2 : k < 2 := by simpa using (List.get?_eq_some.mp hk).1
      interval_cases k
      · exact absurd hk (by decide)
      · exact absurd hk (by decide)),
   (C5_amended (("x\x7by\x7d").data) 0).2 (by decide) 1 (by omega) (by decide)
     (by
      intro k _ hk1
      interval_cases k
      exact ⟨by decide, by decide⟩)⟩

/-! ## Claim C4: the naming-convention rule -/

theorem runLength_append_stop (p : Char → Bool) (w s : List Char)
    (hw : ∀ c ∈ w, p c = true)
    (hs : ∀ c, s.head? = some c → p c = false) :
    runLength p (w ++ s) = w.length := by
  induction w with
  | nil =>
    cases s with
    | nil => rfl
    | cons c r => simp [runLength, hs c rfl]
  | cons c w' ih =>
    have hc := hw c (List.mem_cons_self c w')
    simp [runLength, hc, ih (fun d hd => hw d (List.mem_cons_of_mem c hd))]

theorem word_not_ws (c : Char) (h : isWordChar c = true) : isWs c = false := by
  by_contra hws
  have hws' : isWs c = true := by
    cases hcv : isWs c
    · exact absurd hcv hws
    · rfl
  simp only [isWs, Bool.or_eq_true, decide_eq_true_eq] at hws'
  rcases hws' with ((((h1 | h1) | h1) | h1) | h1) | h1 <;>
    (subst h1; exact absurd h (by decide))

theorem wordChar_ne (c : Char) (h : isWordChar c = true) :
    c ≠ '\n' ∧ c ≠ '(' ∧ c ≠ ';' := by
  refine ⟨?_, ?_, ?_⟩ <;> (rintro rfl; exact absurd h (by decide))

theorem ws_zero_of_word_head (w tail : List Char)
    (hchars : ∀ c ∈ w, isWordChar c = true) :
    wsRun (w ++ ';' :: tail) = 0 := by
  cases w with
  | nil => simp [wsRun, runLength, isWs]
  | cons c w' =>
    have hc := word_not_ws c (hchars c (List.mem_cons_self c w'))
    simp [wsRun, runLength, hc]

theorem wordRun_ident (w tail : List Char)
    (hchars : ∀ c ∈ w, isWordChar c = true) :
    wordRun (w ++ ';' :: tail) = w.length :=
  runLength_append_stop isWordChar w (';' :: tail) hchars
    (fun c hc => by injection hc with h; subst h; decide)

theorem gvIdentTail_ident (consumed : Nat) (w tail : List Char) (hw : w ≠ [])
    (hchars : ∀ c ∈ w, isWordChar c = true) :
    gvIdentTail consumed (w ++ ';' :: tail)
      = some (consumed + w.length + 1, w) := by
  have hword := wordRun_ident w tail hchars
  have hn : w.length ≠ 0 := fun h => hw (List.eq_nil_of_length_eq_zero h)
  have htake : (w ++ ';' :: tail).take w.length = w := List.take_left w _
  have hdrop : (w ++ ';' :: tail).drop w.length = ';' :: tail := List.drop_left w _
  simp [gvIdentTail, hword, hn, htake, hdrop, wsRun, runLength, isWs]

theorem gvTypeTail_int (consumed : Nat) (w tail : List Char) (hw : w ≠ [])
    (hchars : ∀ c ∈ w, isWordChar c = true) :
    gvTypeTail consumed ('i' :: 'n' :: 't' :: ' ' :: (w ++ ';' :: tail))
      = some (consumed + 4 + w.length + 1, w) := by
  have hws0 := ws_zero_of_word_head w tail hchars
  have hident := gvIdentTail_ident (consumed + 0 + 0 + 3 + 1) w tail hw hchars
  simp only [gvTypeTail, optKw, List.isPrefixOf, wordRun, wsRun, runLength] at *
  simp [isWs, isWordChar, isTypeWord, hws0, hident]

theorem gvMatchAt_static (prev : Option Char) (hprev : isWordOpt prev = false)
    (w tail : List Char) (hw : w ≠ [])
    (hchars : ∀ c ∈ w, isWordChar c = true) :
    gvMatchAt prev (("static int ").data ++ (w ++ ';' :: tail))
      = some (12 + w.length, w) := by
  have hty := gvTypeTail_int (6 + 1) w tail hw hchars
  have hpre : ("static int ").data ++ (w ++ ';' :: tail)
      = 's' :: 't' :: 'a' :: 't' :: 'i' :: 'c' :: ' ' :: 'i' :: 'n' :: 't' :: ' '
        :: (w ++ ';' :: tail) := rfl
  rw [hpre]
  simp only [gvMatchAt, wordBoundary, isWordOpt, hprev]
  simp [List.isPrefixOf, wsRun, runLength, isWs, isWordChar, hty]
  exact ⟨by simpa [isWordOpt, isWordChar] using hprev, by omega⟩

theorem scanAux_step_none {m : Option Char → List Char → Option (Nat × List Char)}
    {fuel : Nat} {prev : Option Char} {idx : Nat} {c : Char} {rest : List Char}
    (h : m prev (c :: rest) = none) :
    scanAux m (fuel + 1) prev idx (c :: rest)
      = scanAux m fuel (some c) (idx + 1) rest := by
  simp [scanAux, h]

theorem scanAux_step_some {m : Option Char → List Char → Option (Nat × List Char)}
    {fuel : Nat} {prev : Option Char} {idx : Nat} {s : List Char}
    {len : Nat} {nm : List Char} (h : m prev s = some (len, nm)) :
    scanAux m (fuel + 1) prev idx s
      = ⟨idx, len, nm⟩ :: scanAux m fuel (s.get? (len - 1)) (idx + len) (s.drop len) := by
  simp [scanAux, h]

theorem scanAux_nil {m : Option Char → List Char → Option (Nat × List Char)}
    {fuel : Nat} {prev : Option Char} {idx : Nat} (h : m prev [] = none) :
    scanAux m fuel prev idx [] = [] := by
  cases fuel with
  | zero => rfl
  | succ f => simp [scanAux, h]

theorem scanAux_fuel {m : Option Char → List Char → Option (Nat × List Char)}
    (hm : ∀ prev s len nm, m prev s = some (len, nm) → 1 ≤ len)
    (hm0 : ∀ prev, m prev [] = none) :
    ∀ (f1 f2 : Nat) (prev : Option Char) (idx : Nat) (s : List Char),
      s.length < f1 → s.length < f2 →
      scanAux m f1 prev idx s = scanAux m f2 prev idx s := by
  intro f1
  induction f1 with
  | zero =>
    intro f2 prev idx s h1 _
    exact absurd h1 (Nat.not_lt_zero _)
  | succ f1' ih =>
    intro f2 prev idx s h1 h2
    cases f2 with
    | zero => exact absurd h2 (Nat.not_lt_zero _)
    | succ f2' =>
      cases s with
      | nil =>
        rw [scanAux_nil (hm0 prev), scanAux_nil (hm0 prev)]
      | cons c rest =>
        cases hm' : m prev (c :: rest) with
        | some val =>
          obtain ⟨len, nm⟩ := val
          rw [scanAux_step_some hm', scanAux_step_some hm']
          congr 1
          have hlen := hm prev (c :: rest) len nm hm'
          have hd : ((c :: rest).drop len).length = (c :: rest).length - len := by
            simp
          have hcl : (c :: rest).length = rest.length + 1 := by simp
          exact ih f2' _ _ _ (by omega) (by omega)
        | none =>
          rw [scanAux_step_none hm', scanAux_step_none hm']
          exact ih f2' _ _ _ (by simpa using h1) (by simpa using h2)

theorem scanFrom_cons_none {m : Option Char → List Char → Option (Nat × List Char)}
    {prev : Option Char} {idx : Nat} {c : Char} {rest : List Char}
    (h : m prev (c :: rest) = none) :
    scanFrom m prev idx (c :: rest) = scanFrom m (some c) (idx + 1) rest := by
  show scanAux m ((c :: rest).length + 1) prev idx (c :: rest) = _
  have hl : (c :: rest).length + 1 = (rest.length + 1) + 1 := by simp
  rw [hl, scanAux_step_none h]
  rfl

theorem scanFrom_nil {m : Option Char → List Char → Option (Nat × List Char)}
    {prev : Option Char} {idx : Nat} (h : m prev [] = none) :
    scanFrom m prev idx [] = [] :=
  scanAux_nil h

theorem scanFrom_some {m : Option Char → List Char → Option (Nat × List Char)}
    (hm : ∀ prev s len nm, m prev s = some (len, nm) → 1 ≤ len)
    (hm0 : ∀ prev, m prev [] = none)
    {prev : Option Char} {idx : Nat} {s : List Char} {len : Nat} {nm : List Char}
    (hs : s ≠ []) (h : m prev s = some (len, nm)) :
    scanFrom m prev idx s
      = ⟨idx, len, nm⟩ :: scanFrom m (s.get? (len - 1)) (idx + len) (s.drop len) := by
  show scanAux m (s.length + 1) prev idx s = _
  rw [scanAux_step_some h]
  congr 1
  have hlen := hm prev s len nm h
  have hd : (s.drop len).length = s.length - len := by simp
  have hs1 : 1 ≤ s.length := by
    cases s with
    | nil => exact absurd rfl hs
    | cons c r => simp
  exact scanAux_fuel hm hm0 _ _ _ _ _ (by omega) (by omega)

theorem gvIdentTail_len_pos {consumed : Nat} {s : List Char} {len : Nat}
    {nm : List Char} (h : gvIdentTail consumed s = some (len, nm)) : 1 ≤ len := by
  unfold gvIdentTail at h
  dsimp only at h
  split at h
  · cases h
  · split at h
    · split at h
      · injection h with h1
        injection h1 with h2 _
        omega
      · cases h
    · cases h

theorem gvTypeTail_len_pos {consumed : Nat} {s : List Char} {len : Nat}
    {nm : List Char} (h : gvTypeTail consumed s = some (len, nm)) : 1 ≤ len := by
  unfold gvTypeTail at h
  dsimp only at h
  split at h
  · cases h
  · split at h
    · cases h
    · split at h
      · cases h
      · exact gvIdentTail_len_pos h

theorem gvMatchAt_len_pos (prev : Option Char) (s : List Char) (len : Nat)
    (nm : List Char) (h : gvMatchAt prev s = some (len, nm)) : 1 ≤ len := by
  unfold gvMatchAt at h
  dsimp only at h
  split at h
  · cases h
  · split at h
    · split at h
      · cases h
      · exact gvTypeTail_len_pos h
    · split at h
      · cases h
      · exact gvTypeTail_len_pos h

theorem gvMatchAt_nil (prev : Option Char) : gvMatchAt prev [] = none := by
  by_cases hb : wordBoundary prev ([] : List Char) = false
  · simp [gvMatchAt, hb]
  · simp [gvMatchAt, hb, wsRun, runLength, List.isPrefixOf]

theorem fnParenTail_len_pos {consumed : Nat} {nm0 : List Char} {s : List Char}
    {len : Nat} {nm : List Char}
    (h : fnParenTail consumed nm0 s = some (len, nm)) : 1 ≤ len := by
  unfold fnParenTail at h
  dsimp only at h
  split at h
  · cases h
  · split at h
    · cases h
    · split at h
      · split at h
        · injection h with h1
          injection h1 with h2 _
          omega
        · cases h
      · split at h
        · injection h with h1
          injection h1 with h2 _
          omega
        · cases h

theorem fnMatchAt_len_pos (prev : Option Char) (s : List Char) (len : Nat)
    (nm : List Char) (h : fnMatchAt prev s = some (len, nm)) : 1 ≤ len := by
  unfold fnMatchAt at h
  dsimp only at h
  split at h
  · cases h
  · split at h
    · cases h
    · split at h
      · cases h
      · split at h
        · cases h
        · exact fnParenTail_len_pos h

theorem fnMatchAt_nil (prev : Option Char) : fnMatchAt prev [] = none := by
  by_cases hb : wordBoundary prev ([] : List Char) = false
  · simp [fnMatchAt, hb]
  · simp [fnMatchAt, hb, wordRun, runLength]

theorem gv_fail_no_boundary {prev : Option Char} {s : List Char}
    (h : wordBoundary prev s = false) : gvMatchAt prev s = none := by
  simp [gvMatchAt, h]

theorem gv_fail_head {prev : Option Char} {c : Char} {rest : List Char}
    (hws : isWs c = false) (he : c ≠ 'e') (hs : c ≠ 's') :
    gvMatchAt prev (c :: rest) = none := by
  by_cases hb : wordBoundary prev (c :: rest) = false
  · simp [gvMatchAt, hb]
  · have hpe : ("extern").data.isPrefixOf (c :: rest) = false := by
      simp [List.isPrefixOf]
      intro h
      exact absurd h.symm he
    have hps : ("static").data.isPrefixOf (c :: rest) = false := by
      simp [List.isPrefixOf]
      intro h
      exact absurd h.symm hs
    simp [gvMatchAt, hb, hpe, hps, wsRun, runLength, hws]

theorem gv_fail_space_f {prev : Option Char} {rest : List Char} :
    gvMatchAt prev (' ' :: 'f' :: '(' :: rest) = none := by
  by_cases hb : wordBoundary prev (' ' :: 'f' :: '(' :: rest) = false
  · simp [gvMatchAt, hb]
  · simp [gvMatchAt, gvTypeTail, optKw, hb, wsRun, wordRun, runLength, isWs,
      isWordChar, List.isPrefixOf, isTypeWord]

theorem gv_fail_nl_brace {prev : Option Char} :
    gvMatchAt prev ('\n' :: '\x7d' :: []) = none := by
  by_cases hb : wordBoundary prev ('\n' :: '\x7d' :: []) = false
  · simp [gvMatchAt, hb]
  · simp [gvMatchAt, gvTypeTail, optKw, hb, wsRun, wordRun, runLength, isWs,
      isWordChar, List.isPrefixOf]

theorem gv_fail_brace {prev : Option Char} :
    gvMatchAt prev ('\x7d' :: []) = none :=
  gv_fail_head (by decide) (by decide) (by decide)

theorem fn_fail_no_boundary {prev : Option Char} {s : List Char}
    (h : wordBoundary prev s = false) : fnMatchAt prev s = none := by
  simp [fnMatchAt, h]

theorem fnParenTail_no_paren {consumed : Nat} {nm : List Char} {s4 : List Char}
    (h : '(' ∉ s4) : fnParenTail consumed nm s4 = none := by
  have hhead : s4.head? ≠ some '(' := by
    cases s4 with
    | nil => simp
    | cons c r =>
      simp only [List.head?_cons, ne_eq, Option.some.injEq]
      intro hc
      exact h (hc ▸ List.mem_cons_self c r)
  simp [fnParenTail, hhead]

theorem fnMatchAt_no_paren {prev : Option Char} {s : List Char}
    (h : '(' ∉ s) : fnMatchAt prev s = none := by
  by_cases hb : wordBoundary prev s = false
  · simp [fnMatchAt, hb]
  · unfold fnMatchAt
    dsimp only
    rw [if_neg hb]
    split
    · rfl
    · split
      · rfl
      · split
        · rfl
        · apply fnParenTail_no_paren
          intro hmem
          exact h (List.drop_subset _ _ (List.drop_subset _ _
            (List.drop_subset _ _ (List.drop_subset _ _ hmem))))

theorem fnScanAux_no_paren (fuel : Nat) :
    ∀ (prev : Option Char) (idx : Nat) (s : List Char), '(' ∉ s →
      scanAux fnMatchAt fuel prev idx s = [] := by
  induction fuel with
  | zero => intro prev idx s _; rfl
  | succ f ih =>
    intro prev idx s h
    have hm := @fnMatchAt_no_paren prev s h
    cases s with
    | nil => exact scanAux_nil hm
    | cons c rest =>
      rw [scanAux_step_none hm]
      exact ih _ _ _ (fun hmem => h (List.mem_cons_of_mem c hmem))

theorem fnMatchAt_voidf (rest : List Char) :
    fnMatchAt none ('v' :: 'o' :: 'i' :: 'd' :: ' ' :: 'f' :: '(' :: ')' :: ' '
      :: '\x7b' :: '\n' :: rest) = some (10, 'f' :: []) := by
  simp [fnMatchAt, fnParenTail, wordBoundary, isWordOpt, wordRun, wsRun,
    nonParenRun, runLength, isWs, isWordChar, List.isPrefixOf]

theorem splitLines_no_nl (l : List Char) (h : ∀ c ∈ l, c ≠ '\n') :
    splitLines l = [l] := by
  induction l with
  | nil => rfl
  | cons c rest ih =>
    have hc := h c (List.mem_cons_self c rest)
    simp [splitLines, hc, ih (fun d hd => h d (List.mem_cons_of_mem c hd))]

theorem splitLines_append_nl (a b : List Char) (h : ∀ c ∈ a, c ≠ '\n') :
    splitLines (a ++ '\n' :: b) = a :: splitLines b := by
  induction a with
  | nil => simp [splitLines]
  | cons c a' ih =>
    have hc := h c (List.mem_cons_self c a')
    simp [splitLines, hc, ih (fun d hd => h d (List.mem_cons_of_mem c hd))]

theorem gvScan_qualified (w : List Char) (hw : w ≠ [])
    (hchars : ∀ c ∈ w, isWordChar c = true) :
    rxScan gvMatchAt (gvDocQualified w) = [⟨0, 12 + w.length, w⟩] := by
  have hm : gvMatchAt none (gvDocQualified w) = some (12 + w.length, w) := by
    have := gvMatchAt_static none rfl w [] hw hchars
    simpa [gvDocQualified] using this
  show scanFrom gvMatchAt none 0 (gvDocQualified w) = _
  rw [scanFrom_some gvMatchAt_len_pos gvMatchAt_nil (by simp [gvDocQualified]) hm]
  have hdrop : (gvDocQualified w).drop (12 + w.length) = [] := by
    apply List.drop_eq_nil_of_le
    simp [gvDocQualified]
    omega
  rw [hdrop, scanFrom_nil (gvMatchAt_nil _)]

theorem paren_not_mem_qualified (w : List Char)
    (hchars : ∀ c ∈ w, isWordChar c = true) : '(' ∉ gvDocQualified w := by
  intro hmem
  rcases List.mem_append.mp hmem with h1 | h2
  · exact absurd h1 (by decide)
  · rcases List.mem_append.mp h2 with h3 | h4
    · exact absurd (hchars _ h3) (by decide)
    · exact absurd h4 (by decide)

theorem nl_not_mem_qualified (w : List Char)
    (hchars : ∀ c ∈ w, isWordChar c = true) :
    ∀ c ∈ gvDocQualified w, c ≠ '\n' := by
  intro c hmem
  rcases List.mem_append.mp hmem with h1 | h2
  · intro hc
    subst hc
    exact absurd h1 (by decide)
  · rcases List.mem_append.mp h2 with h3 | h4
    · exact (wordChar_ne c (hchars _ h3)).1
    · intro hc
      subst hc
      exact absurd h4 (by decide)

theorem C4_part1 (w : List Char) (hw : w ≠ [])
    (hchars : ∀ c ∈ w, isWordChar c = true)
    (hg : ("g_").data.isPrefixOf w = false) :
    (namingConventionCheck (gvDocQualified w)).map Finding.message = [gvMsg w] := by
  have hgv := gvScan_qualified w hw hchars
  have hparen := paren_not_mem_qualified w hchars
  have hfn : rxScan fnMatchAt (gvDocQualified w) = [] :=
    fnScanAux_no_paren _ _ _ _ hparen
  have hsplit : splitLines (gvDocQualified w) = [gvDocQualified w] :=
    splitLines_no_nl _ (nl_not_mem_qualified w hchars)
  unfold namingConventionCheck
  rw [hgv, hfn]
  simp [List.filterMap, lineOfOffset, countNl, lineAtText, hsplit,
    isInsideFunction, hg, hparen]

theorem gvScan_nested (w : List Char) (hw : w ≠ [])
    (hchars : ∀ c ∈ w, isWordChar c = true) :
    rxScan gvMatchAt (gvDocNested w) = [⟨11, 12 + w.length, w⟩] := by
  have hT : gvDocNested w
      = 'v' :: 'o' :: 'i' :: 'd' :: ' ' :: 'f' :: '(' :: ')' :: ' ' :: '\x7b'
        :: '\n' :: (("static int ").data ++ (w ++ ';' :: ('\n' :: '\x7d' :: []))) := rfl
  show scanFrom gvMatchAt none 0 (gvDocNested w) = _
  rw [hT]
  rw [scanFrom_cons_none (gv_fail_head (by decide) (by decide) (by decide))]
  rw [scanFrom_cons_none (gv_fail_head (by decide) (by decide) (by decide))]
  rw [scanFrom_cons_none (gv_fail_head (by decide) (by decide) (by decide))]
  rw [scanFrom_cons_none (gv_fail_head (by decide) (by decide) (by decide))]
  rw [scanFrom_cons_none gv_fail_space_f]
  rw [scanFrom_cons_none (gv_fail_head (by decide) (by decide) (by decide))]
  rw [scanFrom_cons_none (gv_fail_head (by decide) (by decide) (by decide))]
  rw [scanFrom_cons_none (gv_fail_head (by decide) (by decide) (by decide))]
  rw [scanFrom_cons_none (gv_fail_no_boundary (by
    simp [wordBoundary, isWordOpt, isWordChar]))]
  rw [scanFrom_cons_none (gv_fail_no_boundary (by
    simp [wordBoundary, isWordOpt, isWordChar]))]
  rw [scanFrom_cons_none (gv_fail_no_boundary (by
    simp [wordBoundary, isWordOpt, isWordChar]))]
  rw [scanFrom_some gvMatchAt_len_pos gvMatchAt_nil (by simp)
    (gvMatchAt_static (some '\n') (by decide) w ('\n' :: '\x7d' :: []) hw hchars)]
  have hdropfin : (("static int ").data ++ (w ++ ';' :: ('\n' :: '\x7d' :: []))).drop
      (12 + w.length) = '\n' :: '\x7d' :: [] := by
    have h1 : 12 + w.length = ("static int ").data.length + (w.length + 1) := by
      simp
      omega
    rw [h1, List.drop_append]
    have h2 : w.length + 1 = w.length + 1 := rfl
    rw [show (w ++ ';' :: ('\n' :: '\x7d' :: [])).drop (w.length + 1)
      = ((w ++ ';' :: ('\n' :: '\x7d' :: [])).drop w.length).drop 1 from by
        rw [List.drop_drop]]
    rw [List.drop_left]
    rfl
  rw [hdropfin]
  rw [scanFrom_cons_none gv_fail_nl_brace]
  rw [scanFrom_cons_none gv_fail_brace]
  rw [scanFrom_nil (gvMatchAt_nil _)]

theorem fnScan_nested (w : List Char)
    (hchars : ∀ c ∈ w, isWordChar c = true) :
    rxScan fnMatchAt (gvDocNested w) = [⟨0, 10, 'f' :: []⟩] := by
  have hT : gvDocNested w
      = 'v' :: 'o' :: 'i' :: 'd' :: ' ' :: 'f' :: '(' :: ')' :: ' ' :: '\x7b'
        :: '\n' :: (("static int ").data ++ (w ++ ';' :: ('\n' :: '\x7d' :: []))) := rfl
  show scanFrom fnMatchAt none 0 (gvDocNested w) = _
  rw [hT]
  rw [scanFrom_some fnMatchAt_len_pos fnMatchAt_nil (by simp) (fnMatchAt_voidf _)]
  have hdrop : ('v' :: 'o' :: 'i' :: 'd' :: ' ' :: 'f' :: '(' :: ')' :: ' '
      :: '\x7b' :: '\n' :: (("static int ").data ++ (w ++ ';' :: ('\n' :: '\x7d' :: [])))).drop 10
      = '\n' :: (("static int ").data ++ (w ++ ';' :: ('\n' :: '\x7d' :: []))) := rfl
  rw [hdrop]
  have htail : scanFrom fnMatchAt (('v' :: 'o' :: 'i' :: 'd' :: ' ' :: 'f' :: '(' :: ')' :: ' '
      :: '\x7b' :: '\n' :: (("static int ").data ++ (w ++ ';' :: ('\n' :: '\x7d' :: [])))).get? (10 - 1))
      (0 + 10) ('\n' :: (("static int ").data ++ (w ++ ';' :: ('\n' :: '\x7d' :: [])))) = [] := by
    apply fnScanAux_no_paren
    intro hmem
    rcases List.mem_cons.mp hmem with h0 | h1
    · exact absurd h0 (by decide)
    · rcases List.mem_append.mp h1 with h2 | h3
      · exact absurd h2 (by decide)
      · rcases List.mem_append.mp h3 with h4 | h5
        · exact absurd (hchars _ h4) (by decide)
        · exact absurd h5 (by decide)
  rw [htail]

theorem C4_part2 (w : List Char) (hw : w ≠ [])
    (hchars : ∀ c ∈ w, isWordChar c = true) :
    namingConventionCheck (gvDocNested w) = [] := by
  have hgv := gvScan_nested w hw hchars
  have hfn := fnScan_nested w hchars
  have hline : lineOfOffset (gvDocNested w) 11 = 1 := rfl
  have hsplit : splitLines (gvDocNested w)
      = ("void f() \x7b").data
        :: splitLines (("static int ").data ++ (w ++ ';' :: '\n' :: '\x7d' :: [])) := by
    have := splitLines_append_nl (("void f() \x7b").data)
      (("static int ").data ++ (w ++ ';' :: '\n' :: '\x7d' :: [])) (by decide)
    simpa [gvDocNested] using this
  have hinside : isInsideFunction (gvDocNested w) 1 = true := by
    rw [isInsideFunction, hsplit]
    rfl
  unfold namingConventionCheck
  rw [hgv, hfn]
  have hcam : isCamelOrPascal ('f' :: []) = true := by decide
  simp [List.filterMap, hline, hinside, hcam]

/-- C4: amended. The naming-convention rule does not flag every file-scope
variable lacking the `g_` prefix. For a declaration led by a `static`/`extern`
qualifier at file scope, such as `static int w;`, the rule reports exactly the
one finding `Global variable "w" should start with "g_" prefix`; but the same
declaration nested inside a function body is correctly suppressed by the
brace-counting `isInsideFunction` test, and an unqualified declaration at the
very start of a document (e.g. `int count;` with nothing before it) is not
matched at all, because the regex requires either a qualifier keyword or a
preceding word character. -/
theorem C4_amended (w : List Char) (hw : w ≠ [])
    (hchars : ∀ c ∈ w, isWordChar c = true)
    (hg : ("g_").data.isPrefixOf w = false) :
    (namingConventionCheck (gvDocQualified w)).map Finding.message = [gvMsg w] ∧
    namingConventionCheck (gvDocNested w) = [] :=
  ⟨C4_part1 w hw hchars hg, C4_part2 w hw hchars⟩

theorem C4_witness :
    (("count").data ≠ [] ∧ (∀ c ∈ ("count").data, isWordChar c = true) ∧
      ("g_").data.isPrefixOf (("count").data) = false) ∧
    (namingConventionCheck (gvDocQualified (("count").data))).map Finding.message
      = [gvMsg (("count").data)] ∧
    namingConventionCheck (gvDocNested (("count").data)) = [] :=
  ⟨⟨by decide, by decide, by decide⟩,
   C4_amended (("count").data) (by decide) (by decide) (by decide)⟩
